import Mathlib

/-!
Verification of the decision-tracking and filtering core of Yatat
(`yatat.py`): tweet records and their classification, the persistent
decision ledger (`Decisions`), the selection filter pipeline
(`UserInterface.filter`) and the destruction runner
(`UserInterface.destroy_tweets`), shallowly embedded in Lean.
-/

set_option maxHeartbeats 1000000

namespace Yatat

/-- A tweet record as built by `Tweet.__init__` in `yatat.py` from one JSON
archive entry: the id (`json["id"]`), the full text (`json["full_text"]`),
the timestamp already normalized to `YYYY-MM-DD HH:MM:SS` form, and the
optional reply-target id (`json["in_reply_to_status_id"]`, `None` when the
key is absent). -/
structure Tweet where
  tweet_id : String
  text : String
  timestamp : String
  in_reply_to_status_id : Option String
  deriving DecidableEq, Repr

/-- Model of `Tweet.is_reply`: tweets with an `in_reply_to_status_id` set are replies. -/
def Tweet.is_reply (t : Tweet) : Bool :=
  t.in_reply_to_status_id.isSome

/-- Python `str.startswith`: the prefix test on strings, expressed on the
underlying character lists. -/
def strStartsWith (s pre : String) : Bool :=
  pre.data.isPrefixOf s.data

/-- Model of `Tweet.is_retweet`: tweets whose text starts with `"RT @"` are retweets. -/
def Tweet.is_retweet (t : Tweet) : Bool :=
  strStartsWith t.text "RT @"

/-- Model of `Tweet.is_tweet`: tweets that are not retweets and not replies. -/
def Tweet.is_tweet (t : Tweet) : Bool :=
  !t.is_retweet && !t.is_reply

/-- Whether exactly one of the three classification predicates holds. -/
def Tweet.exactlyOneClass (t : Tweet) : Bool :=
  [t.is_retweet, t.is_reply, t.is_tweet].count true == 1

/-- A retweet-shaped reply: both the retweet signal (text starts with
`"RT @"`) and a reply-target id are present. -/
def rtReply : Tweet :=
  { tweet_id := "4"
    text := "RT @someone: hello"
    timestamp := "2020-01-01 00:00:00"
    in_reply_to_status_id := some "7" }

/-! ### The selection filter pipeline (`UserInterface.filter`) -/

/-- Python `list.remove`: drop the first occurrence of `t`. (In
`UserInterface.filter` the element is always present when removed, so the
`ValueError` branch of the real `list.remove` is unreachable.) -/
def pyRemove : List Tweet → Tweet → List Tweet
  | [], _ => []
  | x :: xs, t => if x = t then xs else x :: pyRemove xs t

/-- One iteration of a filter stage's removal loop body. -/
def removeStep (p : Tweet → Bool) (cur : List Tweet) (t : Tweet) : List Tweet :=
  if p t then pyRemove cur t else cur

/-- The removal loop of one confirmed filter stage in `UserInterface.filter`:
`for tweet in list(tweets): if p(tweet): tweets.remove(tweet)` — iterate over
a snapshot copy of the list, removing from the live list. -/
def removeLoop (p : Tweet → Bool) (l : List Tweet) : List Tweet :=
  l.foldl (removeStep p) l

/-- A whole filter stage: each stage is guarded by `if tweets:` and skipped
on an empty list; when the user confirms, the removal loop runs. -/
def filterStage (p : Tweet → Bool) (l : List Tweet) : List Tweet :=
  if l.isEmpty then l else removeLoop p l

/-! ### Python subjects and optional arguments -/

/-- A Python value used as a decision subject; `Decisions` applies
`str(subject)` before storing it. Subjects in this program are tweet ids,
which are strings in the JSON archive variant and ints in tests. -/
inductive Subj where
  | str (s : String)
  | int (n : Int)
  deriving DecidableEq, Repr

/-- Python `str(subject)`: a string is itself, an int prints in decimal. -/
def Subj.pyStr : Subj → String
  | .str s => s
  | .int n => toString n

/-- A Python value passed as the optional `explicit_decision` argument of
`Decisions.made`: `None` (the default), a string, or an int. -/
inductive PyArg where
  | pyNone
  | str (s : String)
  | int (n : Int)
  deriving DecidableEq, Repr

/-- Python truthiness (`if explicit_decision:`): `None`, `""` and `0` are
falsy. -/
def PyArg.truthy : PyArg → Bool
  | .pyNone => false
  | .str s => decide (s ≠ "")
  | .int n => decide (n ≠ 0)

/-- Python `==` between a category name (a string) and the `explicit_decision`
argument (`decision == explicit_decision`): an int or `None` never equals a
string. -/
def pyEqStr (c : String) : PyArg → Bool
  | .str s => decide (c = s)
  | _ => false

/-! ### The decision ledger (`Decisions`) -/

/-- The in-memory state of a `Decisions` ledger: `work_dir` and the dict
`self.decisions`, whose keys are exactly `possible_decisions` (in Python
set-iteration order) and whose values are the per-category sets of subject
strings. -/
structure Decisions where
  work_dir : String
  cats : List (String × Finset String)
  deriving DecidableEq

/-- The category names managed by the ledger (the dict keys). -/
def Decisions.keys (d : Decisions) : List String :=
  d.cats.map Prod.fst

/-- Python dict lookup `self.decisions[c]`, as an `Option` (`none` models
the `KeyError` raised on a missing key; the dict has unique keys, so the
first match is the match). -/
def findCat : List (String × Finset String) → String → Option (Finset String)
  | [], _ => none
  | p :: ps, c => if p.1 = c then some p.2 else findCat ps c

/-- The set stored for a category, defaulting to `∅` when the category is
absent (used only to state properties; the code itself raises there). -/
def Decisions.getSet (d : Decisions) (c : String) : Finset String :=
  (findCat d.cats c).getD ∅

/-- Replace the set of category `c` by `f` applied to it (Python mutates
the set object held in the dict entry). -/
def Decisions.updateCat (d : Decisions) (c : String)
    (f : Finset String → Finset String) : Decisions :=
  ⟨d.work_dir, d.cats.map (fun p => if p.1 = c then (p.1, f p.2) else p)⟩

/-- Model of `Decisions.decision`: the `(decision, subjects, filename)` tuple; the
subjects component is `None` when the decision is not a dict key, and the
filename is `'/'.join([self.work_dir, decision])`. -/
def Decisions.decisionTuple (d : Decisions) (c : String) :
    String × Option (Finset String) × String :=
  (c, findCat d.cats c, d.work_dir ++ "/" ++ c)

/-- Model of `Decisions.decide`: `self.decisions[decision].add(str(subject))`;
`none` models the `KeyError` on an unknown category. -/
def Decisions.decide (d : Decisions) (subject : Subj) (decision : String) :
    Option Decisions :=
  match findCat d.cats decision with
  | none => none
  | some _ => some (d.updateCat decision (insert subject.pyStr))

/-- Model of `Decisions.revoke`: remove `str(subject)` from the category's set when
present (a no-op on a non-member); `none` models the `KeyError` on an
unknown category. -/
def Decisions.revoke (d : Decisions) (subject : Subj) (decision : String) :
    Option Decisions :=
  match findCat d.cats decision with
  | none => none
  | some _ => some (d.updateCat decision (fun S => S.erase subject.pyStr))

/-- The successful branch of `Decisions.decide`, total: used where the
category is known to be a dict key, so the `KeyError` is unreachable. -/
def Decisions.decideT (d : Decisions) (subject : Subj) (decision : String) :
    Decisions :=
  d.updateCat decision (insert subject.pyStr)

/-- The successful branch of `Decisions.revoke`, total: used where the
category is known to be a dict key, so the `KeyError` is unreachable. -/
def Decisions.revokeT (d : Decisions) (subject : Subj) (decision : String) :
    Decisions :=
  d.updateCat decision (fun S => S.erase subject.pyStr)

/-- Model of `Decisions.count`: `len(self.decision(decision)[1])`; for an unknown
category the subjects component is `None` and Python's `len(None)` raises a
`TypeError`, modelled as `none`. -/
def Decisions.count (d : Decisions) (decision : String) : Option Nat :=
  (findCat d.cats decision).map Finset.card

/-- Model of `Decisions.made`: iterate over all possible decisions (whose dict
entries always exist after `__init__`); with a truthy `explicit_decision`,
return whether some category equal to it contains `str(subject)`, otherwise
whether any category contains `str(subject)`. -/
def Decisions.made (d : Decisions) (subject : Subj) (explicit : PyArg) : Bool :=
  if explicit.truthy then
    d.cats.any (fun p => pyEqStr p.1 explicit && Decidable.decide (subject.pyStr ∈ p.2))
  else
    d.cats.any (fun p => Decidable.decide (subject.pyStr ∈ p.2))

/-- A left-to-right sequence of `decide` calls for one category,
propagating the `KeyError` failure. -/
def decideAll (d : Decisions) (c : String) (l : List Subj) : Option Decisions :=
  l.foldlM (fun d' s => d'.decide s c) d

/-- The same sequence through the total success branch. -/
def decideAllT (d : Decisions) (c : String) (l : List Subj) : Decisions :=
  l.foldl (fun d' s => d'.decideT s c) d

/-! ### File persistence (`Decisions.__init__` and `Decisions.commit`) -/

/-- The character class removed by Python `str.strip()` at both ends:
every character whose `str.isspace()` is true, i.e. the full CPython
Unicode whitespace set — tab through carriage return, the separator
controls 1C–1F, space, NEL, no-break space, Ogham space mark, the en-quad
through hair-space range, line and paragraph separators, narrow no-break
space, medium mathematical space and ideographic space. -/
def isPySpace (ch : Char) : Bool :=
  (0x09 ≤ ch.toNat && ch.toNat ≤ 0x0d)
    || (0x1c ≤ ch.toNat && ch.toNat ≤ 0x1f)
    || ch.toNat == 0x20 || ch.toNat == 0x85 || ch.toNat == 0xa0
    || ch.toNat == 0x1680
    || (0x2000 ≤ ch.toNat && ch.toNat ≤ 0x200a)
    || ch.toNat == 0x2028 || ch.toNat == 0x2029
    || ch.toNat == 0x202f || ch.toNat == 0x205f || ch.toNat == 0x3000

/-- Python `line.strip()` on the characters of a line. -/
def pyStrip (l : List Char) : List Char :=
  ((l.dropWhile isPySpace).reverse.dropWhile isPySpace).reverse

/-- Universal-newline translation of text-mode reading (`newline=None`):
every `'\r\n'` pair and every lone `'\r'` becomes a single `'\n'` before
the lines are split. -/
def normalizeNL : List Char → List Char
  | [] => []
  | [c] => if c = '\r' then ['\n'] else [c]
  | c :: c' :: cs =>
      if c = '\r' then
        if c' = '\n' then '\n' :: normalizeNL cs
        else '\n' :: normalizeNL (c' :: cs)
      else c :: normalizeNL (c' :: cs)

/-- Split a character sequence at newline characters; the segments carry no
terminators and a trailing newline yields a trailing empty segment. -/
def splitNL : List Char → List (List Char)
  | [] => [[]]
  | ch :: cs =>
      if ch = '\n' then [] :: splitNL cs
      else
        match splitNL cs with
        | [] => [[ch]]
        | seg :: rest => (ch :: seg) :: rest

/-- Drop the empty segment a trailing newline leaves behind, recovering the
line count of Python `readlines` (which emits no empty final line). -/
def dropTrailingEmpty (segs : List (List Char)) : List (List Char) :=
  if segs.getLast? = some [] then segs.dropLast else segs

/-- Model of `{line.strip() for line in file.readlines()}` on a text-mode
file: universal-newline translation first turns `'\r\n'` and lone `'\r'`
into `'\n'`, `readlines` then yields each line including its terminator
(and no empty final line), and `strip` removes the terminator — so the
result is the set of stripped newline-split segments of the translated
content, with the trailing empty segment dropped. -/
def readSubjects (content : String) : Finset String :=
  ((dropTrailingEmpty (splitNL (normalizeNL content.data))).map
    (fun l => String.mk (pyStrip l))).toFinset

/-- The persistent backing store: file path → file contents. -/
abbrev Store := String → Option String

/-- Overwrite one file in the store. -/
def storeWrite (st : Store) (fn content : String) : Store :=
  fun x => if x = fn then some content else st x

/-- Model of the commit write `file.writelines(['{0}\n'.format(subject) for subject in subjects])`:
each subject followed by a newline, concatenated. -/
def writeLines (subjects : List String) : String :=
  String.mk ((subjects.map (fun s => s.data ++ ['\n'])).flatten)

/-- The touch-then-read of one decision file in `Decisions.__init__`:
`open(filename, 'a')` creates the file when missing and leaves an existing
one intact, then the subjects are read back from it. -/
def touchRead (st : Store) (fn : String) : Finset String × Store :=
  match st fn with
  | none => (readSubjects "", storeWrite st fn "")
  | some content => (readSubjects content, st)

/-- One iteration of the `Decisions.__init__` loop over
`possible_decisions`: touch the category's file, read its subjects, extend
the dict. -/
def openStep (wd : String) (acc : Decisions × Store) (c : String) :
    Decisions × Store :=
  let r := touchRead acc.2 (wd ++ "/" ++ c)
  (⟨acc.1.work_dir, acc.1.cats ++ [(c, r.1)]⟩, r.2)

/-- Model of `Decisions.__init__`, the spec's `open(workDir, categories)`: build the
in-memory ledger from the store, returning it with the store after the
touches. -/
def openDecisions (wd : String) (possible : List String) (st : Store) :
    Decisions × Store :=
  possible.foldl (openStep wd) (⟨wd, []⟩, st)

/-- Python iterates its sets in an unspecified order; an enumeration
function fixes one order for every set. `IsEnum` states the only property
the code may rely on: the enumeration lists exactly the set's elements. -/
def IsEnum (enum : Finset String → List String) : Prop :=
  ∀ S : Finset String, (enum S).toFinset = S

/-- A total lexicographic comparison on character lists (by code point),
used only to fix one concrete, computable set-iteration order. -/
def lexLe : List Char → List Char → Bool
  | [], _ => true
  | _ :: _, [] => false
  | a :: as, b :: bs => if a < b then true else if b < a then false else lexLe as bs

/-- The corresponding order on strings. -/
def strOrd (s t : String) : Prop :=
  lexLe s.data t.data = true

instance : DecidableRel strOrd :=
  fun s t => inferInstanceAs (Decidable (lexLe s.data t.data = true))

instance : IsTotal String strOrd :=
  ⟨fun s t => by
    have h : ∀ a b : List Char, lexLe a b = true ∨ lexLe b a = true := by
      intro a
      induction a with
      | nil => intro b; left; rfl
      | cons x xs ih =>
          intro b
          cases b with
          | nil => right; rfl
          | cons y ys =>
              rcases lt_trichotomy x y with h1 | h1 | h1
              · left; simp [lexLe, h1]
              · subst h1
                simpa [lexLe, lt_self_iff_false] using ih ys
              · right; simp [lexLe, h1]
    exact h s.data t.data⟩

instance : IsTrans String strOrd :=
  ⟨fun s t u hst htu => by
    have h : ∀ a b c : List Char,
        lexLe a b = true → lexLe b c = true → lexLe a c = true := by
      intro a
      induction a with
      | nil => intro b c _ _; rfl
      | cons x xs ih =>
          intro b c hab hbc
          cases b with
          | nil => simp [lexLe] at hab
          | cons y ys =>
              cases c with
              | nil => simp [lexLe] at hbc
              | cons z zs =>
                  simp only [lexLe] at hab hbc ⊢
                  by_cases hxy : x < y
                  · by_cases hyz : y < z
                    · simp [lt_trans hxy hyz]
                    · by_cases hzy : z < y
                      · simp [hyz, hzy] at hbc
                      · have hyz' : y = z :=
                          le_antisymm (not_lt.mp hzy) (not_lt.mp hyz)
                        subst hyz'
                        simp [hxy]
                  · by_cases hyx : y < x
                    · simp [hxy, hyx] at hab
                    · have hxy' : x = y :=
                        le_antisymm (not_lt.mp hyx) (not_lt.mp hxy)
                      subst hxy'
                      simp only [lt_self_iff_false, if_false] at hab
                      by_cases hxz : x < z
                      · simp [hxz]
                      · by_cases hzx : z < x
                        · simp [hxz, hzx] at hbc
                        · have hxz' : x = z :=
                            le_antisymm (not_lt.mp hzx) (not_lt.mp hxz)
                          subst hxz'
                          simp only [lt_self_iff_false, if_false] at hbc ⊢
                          exact ih ys zs hab hbc
    exact h s.data t.data u.data hst htu⟩

instance : IsAntisymm String strOrd :=
  ⟨fun s t hst hts => by
    have h : ∀ a b : List Char, lexLe a b = true → lexLe b a = true → a = b := by
      intro a
      induction a with
      | nil =>
          intro b hab hba
          cases b with
          | nil => rfl
          | cons y ys => simp [lexLe] at hba
      | cons x xs ih =>
          intro b hab hba
          cases b with
          | nil => simp [lexLe] at hab
          | cons y ys =>
              simp only [lexLe] at hab hba
              by_cases hxy : x < y
              · simp [hxy, asymm hxy] at hba
              · by_cases hyx : y < x
                · simp [hxy, hyx] at hab
                · have hxy' : x = y :=
                    le_antisymm (not_lt.mp hyx) (not_lt.mp hxy)
                  subst hxy'
                  simp only [lt_self_iff_false, if_false] at hab hba
                  rw [ih ys hab hba]
    have h2 := h s.data t.data hst hts
    cases s; cases t
    exact congrArg String.mk h2⟩

/-- One concrete, computable set-iteration order: enumerate a set in
ascending `strOrd` order (insertion sort applied to any representative;
sorting makes the result independent of the representative). -/
def insEnum (S : Finset String) : List String :=
  Quotient.liftOn S.val (fun l => l.insertionSort strOrd)
    (fun a b hab =>
      List.eq_of_perm_of_sorted
        (List.Perm.trans (List.perm_insertionSort strOrd a)
          (List.Perm.trans hab (List.Perm.symm (List.perm_insertionSort strOrd b))))
        (List.sorted_insertionSort strOrd a)
        (List.sorted_insertionSort strOrd b))

/-- The body of `Decisions.commit` over an explicit category list. -/
def commitList (wd : String) (enum : Finset String → List String)
    (cats : List (String × Finset String)) (st : Store) : Store :=
  cats.foldl
    (fun s p => storeWrite s (wd ++ "/" ++ p.1) (writeLines (enum p.2))) st

/-- Model of `Decisions.commit`: overwrite every category's file with its current
subjects, one per line, in the set-iteration order given by `enum`. -/
def Decisions.commitWith (d : Decisions) (enum : Finset String → List String)
    (st : Store) : Store :=
  commitList d.work_dir enum d.cats st

/-- A subject string that survives the line-based storage format: free of
newlines and carriage returns (both act as line terminators under
universal-newline reading) and unchanged by `strip()`. -/
def cleanSubject (s : String) : Prop :=
  '\n' ∉ s.data ∧ '\r' ∉ s.data ∧ pyStrip s.data = s.data

instance (s : String) : Decidable (cleanSubject s) :=
  inferInstanceAs
    (Decidable ('\n' ∉ s.data ∧ '\r' ∉ s.data ∧ pyStrip s.data = s.data))

/-- A ledger state the round-trip claim fails on: a subject with a leading
space. -/
def dirtyLedger : Decisions :=
  ⟨"w", [("c", {" a"})]⟩

/-! ### The destruction runner (`UserInterface.destroy_tweets`) -/

/-- The `UserInterface.keep` category name. -/
def keepCat : String := "yatat.keep"

/-- The `UserInterface.destroy` category name. -/
def destroyCat : String := "yatat.destroy"

/-- The `UserInterface.destroyed` category name. -/
def destroyedCat : String := "yatat.destroyed"

/-- One iteration of the destruction pass: skip a subject that is also kept
or already destroyed; otherwise invoke the deletion collaborator
(`api.destroy_status`, modelled by its success predicate, the invocation
recorded in the trace) and on success record the subject as destroyed; a
failed call is reported and the pass continues with the next subject. The
total `decideT` is used because `yatat.destroyed` is always a dict key in a
`UserInterface` ledger, so `decide`'s `KeyError` is unreachable. -/
def destroyStep (api : String → Bool) (acc : Decisions × List String)
    (t : String) : Decisions × List String :=
  if acc.1.made (Subj.str t) (PyArg.str keepCat) then acc
  else if acc.1.made (Subj.str t) (PyArg.str destroyedCat) then acc
  else if api t then (acc.1.decideT (Subj.str t) destroyedCat, acc.2 ++ [t])
  else (acc.1, acc.2 ++ [t])

/-- The destruction pass over the destroy set, in iteration order `order`;
returns the ledger and the trace of subjects passed to the collaborator. -/
def destroyPass (api : String → Bool) (d : Decisions) (order : List String) :
    Decisions × List String :=
  order.foldl (destroyStep api) (d, [])

/-- Model of `UserInterface.destroy_tweets` with a configured collaborator: the pass
over the destroy set followed by the reconciliation step, which revokes
every subject of the destroyed set (iterated in the order given by `enum`)
from the destroy set. -/
def destroyTweets (api : String → Bool) (enum : Finset String → List String)
    (d : Decisions) (order : List String) : Decisions × List String :=
  ((enum ((destroyPass api d order).1.getSet destroyedCat)).foldl
      (fun dd t => dd.revokeT (Subj.str t) destroyCat)
      (destroyPass api d order).1,
    (destroyPass api d order).2)

/-- A `UserInterface`-shaped ledger for concrete runs: subject `"2"` is
marked both to keep and to destroy, subject `"1"` only to destroy. -/
def runLedger : Decisions :=
  ⟨"w", [(keepCat, {"2"}), (destroyCat, {"1", "2"}), (destroyedCat, ∅)]⟩

/-! ### Archive loading (`Archive.__init__`) and startup order -/

/-- The part of the filesystem the startup path consults: which paths are
directories, the parsed tweet list of each archive data file (JSON parsing
itself is the `json` module's concern), and the text files backing the
decision ledger. -/
structure FS where
  isDir : String → Bool
  tweetFiles : String → Option (List Tweet)
  textFiles : Store

/-- The two startup failures of `Archive.__init__`, each raised as an
`Oops` exception with the corresponding message. -/
inductive ArchiveError where
  | missingDirectory (workingDir : String)
  | missingArchiveFile (path : String)
  deriving DecidableEq, Repr

/-- Model of `Archive.__init__`: raise if the working directory does not exist, then
raise if `tweet.js` is absent in it, else load all tweets from it. -/
def archiveLoad (fs : FS) (workingDir : String) :
    Except ArchiveError (List Tweet) :=
  if !fs.isDir workingDir then .error (.missingDirectory workingDir)
  else
    match fs.tweetFiles (workingDir ++ "/" ++ "tweet.js") with
    | none => .error (.missingArchiveFile (workingDir ++ "/" ++ "tweet.js"))
    | some tweets => .ok tweets

/-- The startup order of `UserInterface.__init__`: the archive is loaded
first; only when that succeeds is the decision ledger constructed (touching
its backing files). An archive error therefore propagates before any
ledger state exists. -/
def uiInit (fs : FS) (workDir : String) :
    Except ArchiveError (List Tweet × Decisions × Store) :=
  match archiveLoad fs workDir with
  | .error e => .error e
  | .ok tweets =>
      .ok (tweets,
        openDecisions workDir [keepCat, destroyCat, destroyedCat] fs.textFiles)

/-- A filesystem without the working directory. -/
def fsNoDir : FS :=
  ⟨fun _ => false, fun _ => none, fun _ => none⟩

/-- A filesystem with the working directory but no archive data file. -/
def fsNoFile : FS :=
  ⟨fun _ => true, fun _ => none, fun _ => none⟩

/-! ### Theorems -/

theorem pyRemove_cons_ne (p : Tweet) (c : List Tweet) (x : Tweet) (h : p ≠ x) :
    pyRemove (p :: c) x = p :: pyRemove c x := by
  simp [pyRemove, h]

theorem foldl_removeStep_cons (p : Tweet → Bool) (t : Tweet) :
    ∀ (s c : List Tweet), (∀ x ∈ s, p x = true → t ≠ x) →
      List.foldl (removeStep p) (t :: c) s = t :: List.foldl (removeStep p) c s := by
  intro s
  induction s with
  | nil => intro c _; rfl
  | cons x xs ih =>
      intro c hx
      by_cases hpx : p x = true
      · have hne : t ≠ x := hx x (List.mem_cons_self x xs) hpx
        simp only [List.foldl_cons, removeStep, hpx, if_true,
          pyRemove_cons_ne t c x hne]
        exact ih (pyRemove c x) (fun y hy hpy => hx y (List.mem_cons_of_mem x hy) hpy)
      · simp only [List.foldl_cons, removeStep, hpx, if_false]
        exact ih c (fun y hy hpy => hx y (List.mem_cons_of_mem x hy) hpy)

/-- The removal loop is extensionally list filtering by the negated
predicate, even in the presence of duplicate (structurally equal) tweets. -/
theorem removeLoop_eq_filter (p : Tweet → Bool) :
    ∀ l : List Tweet, removeLoop p l = l.filter (fun x => !p x) := by
  intro l
  induction l with
  | nil => rfl
  | cons t ts ih =>
      by_cases hpt : p t = true
      · have h1 : removeStep p (t :: ts) t = ts := by
          simp [removeStep, hpt, pyRemove]
        simp only [removeLoop, List.foldl_cons, h1]
        have := ih
        simp only [removeLoop] at this
        simp [this, List.filter_cons, hpt]
      · have h1 : removeStep p (t :: ts) t = t :: ts := by
          simp [removeStep, hpt]
        have h2 : List.foldl (removeStep p) (t :: ts) ts
            = t :: List.foldl (removeStep p) ts ts := by
          apply foldl_removeStep_cons
          intro x hx hpx hrw
          exact hpt (hrw ▸ hpx)
        have h3 := ih
        simp only [removeLoop] at h3
        simp only [removeLoop, List.foldl_cons, h1, h2, h3]
        simp [List.filter_cons, hpt]

theorem filterStage_eq_filter (p : Tweet → Bool) (l : List Tweet) :
    filterStage p l = l.filter (fun x => !p x) := by
  rcases l with _ | ⟨t, ts⟩
  · rfl
  · simp [filterStage, removeLoop_eq_filter]

/-- C7: the remove-retweets stage and the remove-replies stage of the
selection pipeline commute: applying them in either order to any candidate
list yields the same final list (hence the same final set) of tweets. -/
theorem filter_stages_commute (l : List Tweet) :
    filterStage Tweet.is_reply (filterStage Tweet.is_retweet l)
      = filterStage Tweet.is_retweet (filterStage Tweet.is_reply l) := by
  simp only [filterStage_eq_filter, List.filter_filter]
  have : (fun x : Tweet => (!x.is_retweet && !x.is_reply))
      = (fun x : Tweet => (!x.is_reply && !x.is_retweet)) := by
    funext x
    exact Bool.and_comm _ _
  rw [show (fun x : Tweet => (!x.is_reply && !x.is_retweet))
      = (fun x : Tweet => (!x.is_retweet && !x.is_reply)) from this.symm]

/-- C3 (counterexample): a record carrying both the retweet signal and a
reply-target id satisfies `is_retweet` AND `is_reply`, so it is not
"classified as a retweet and not as a reply" and not exactly one
classification holds. -/
theorem classification_counterexample :
    rtReply.is_retweet = true ∧ rtReply.is_reply = true
      ∧ rtReply.exactlyOneClass = false := by
  refine ⟨by decide, by decide, by decide⟩

/-- C3 (amended): the three classification predicates are independent checks
with no priority order: at least one always holds, `is_tweet` holds iff
neither signal is present, and exactly one holds iff the record does not
carry both the retweet signal and a reply-target id. -/
theorem classification_amended (t : Tweet) :
    (t.is_retweet = true ∨ t.is_reply = true ∨ t.is_tweet = true)
      ∧ (t.is_tweet = true ↔ (t.is_retweet = false ∧ t.is_reply = false))
      ∧ (t.exactlyOneClass = true ↔ ¬(t.is_retweet = true ∧ t.is_reply = true)) := by
  rcases hr : t.is_retweet <;> rcases hp : t.is_reply <;>
    simp [Tweet.is_tweet, Tweet.exactlyOneClass, hr, hp]

/-! ### Ledger lemmas -/

theorem findCat_eq_none_iff (c : String) (cats : List (String × Finset String)) :
    findCat cats c = none ↔ c ∉ cats.map Prod.fst := by
  induction cats with
  | nil => simp [findCat]
  | cons p ps ih =>
      by_cases h : p.1 = c
      · simp [findCat, h]
      · simp only [findCat, h, if_false, List.map_cons, List.mem_cons, not_or, ih]
        constructor
        · intro hn; exact ⟨fun heq => h heq.symm, hn⟩
        · intro hn; exact hn.2

theorem findCat_isSome_iff_mem (c : String) (cats : List (String × Finset String)) :
    (findCat cats c).isSome ↔ c ∈ cats.map Prod.fst := by
  rw [Option.isSome_iff_ne_none, ne_eq, findCat_eq_none_iff]
  exact not_not

theorem findCat_update_self (c : String) (f : Finset String → Finset String)
    (cats : List (String × Finset String)) :
    findCat (cats.map (fun p => if p.1 = c then (p.1, f p.2) else p)) c
      = (findCat cats c).map f := by
  induction cats with
  | nil => rfl
  | cons p ps ih =>
      by_cases h : p.1 = c <;> simp [findCat, h, ih]

theorem findCat_update_ne (c c' : String) (hne : c' ≠ c)
    (f : Finset String → Finset String) (cats : List (String × Finset String)) :
    findCat (cats.map (fun p => if p.1 = c then (p.1, f p.2) else p)) c'
      = findCat cats c' := by
  induction cats with
  | nil => rfl
  | cons p ps ih =>
      have hcc : c ≠ c' := fun heq => hne heq.symm
      by_cases h : p.1 = c
      · have h2 : p.1 ≠ c' := fun heq => hne (heq ▸ h)
        simp [findCat, h, h2, hcc, hne, ih]
      · by_cases h2 : p.1 = c' <;> simp [findCat, h, h2, hcc, hne, ih]

theorem keys_updateCat (d : Decisions) (c : String)
    (f : Finset String → Finset String) : (d.updateCat c f).keys = d.keys := by
  simp only [Decisions.keys, Decisions.updateCat, List.map_map]
  apply List.map_congr_left
  intro p _
  by_cases h : p.1 = c <;> simp [h]

theorem getSet_updateCat_self (d : Decisions) (c : String)
    (f : Finset String → Finset String) (h : (findCat d.cats c).isSome) :
    (d.updateCat c f).getSet c = f (d.getSet c) := by
  rcases hfc : findCat d.cats c with _ | S
  · rw [hfc] at h; cases h
  · simp [Decisions.getSet, Decisions.updateCat, findCat_update_self, hfc]

theorem getSet_updateCat_ne (d : Decisions) (c c' : String) (hne : c' ≠ c)
    (f : Finset String → Finset String) :
    (d.updateCat c f).getSet c' = d.getSet c' := by
  simp [Decisions.getSet, Decisions.updateCat, findCat_update_ne c c' hne]

theorem pyEqStr_str (a b : String) :
    pyEqStr a (PyArg.str b) = Decidable.decide (a = b) := rfl

theorem any_keyEq_eq_false (s c : String) (cats : List (String × Finset String))
    (hc : c ∉ cats.map Prod.fst) :
    (cats.any (fun p => pyEqStr p.1 (PyArg.str c) && Decidable.decide (s ∈ p.2)))
      = false := by
  induction cats with
  | nil => rfl
  | cons p ps ih =>
      simp only [List.map_cons, List.mem_cons, not_or] at hc
      have h1 : p.1 ≠ c := fun heq => hc.1 heq.symm
      have hd : (pyEqStr p.1 (PyArg.str c)) = false := by simp [pyEqStr_str, h1]
      simp only [List.any_cons, hd, Bool.false_and, Bool.false_or]
      exact ih hc.2

theorem any_explicit_eq_mem (s c : String) (cats : List (String × Finset String))
    (hnd : (cats.map Prod.fst).Nodup) :
    (cats.any (fun p => pyEqStr p.1 (PyArg.str c) && Decidable.decide (s ∈ p.2)))
      = Decidable.decide (s ∈ (findCat cats c).getD ∅) := by
  induction cats with
  | nil => simp [findCat]
  | cons p ps ih =>
      simp only [List.map_cons, List.nodup_cons] at hnd
      by_cases h : p.1 = c
      · have hout : c ∉ ps.map Prod.fst := h ▸ hnd.1
        have htail := any_keyEq_eq_false s c ps hout
        have hd : (pyEqStr p.1 (PyArg.str c)) = true := by simp [pyEqStr_str, h]
        simp only [List.any_cons, hd, Bool.true_and, htail, Bool.or_false,
          findCat, h, if_true, Option.getD_some]
        simp [pyEqStr_str]
      · have hd : (pyEqStr p.1 (PyArg.str c)) = false := by simp [pyEqStr_str, h]
        simp only [List.any_cons, hd, Bool.false_and, Bool.false_or, findCat, h,
          if_false]
        exact ih hnd.2

theorem made_str_eq (d : Decisions) (s : Subj) (c : String) (hne : c ≠ "")
    (hnodup : d.keys.Nodup) :
    d.made s (PyArg.str c) = Decidable.decide (s.pyStr ∈ d.getSet c) := by
  have htr : (PyArg.str c).truthy = true := by simp [PyArg.truthy, hne]
  simp only [Decisions.made, htr, if_true]
  exact any_explicit_eq_mem s.pyStr c d.cats hnodup

theorem made_none_iff (d : Decisions) (s : Subj) :
    d.made s PyArg.pyNone = true ↔ ∃ p ∈ d.cats, s.pyStr ∈ p.2 := by
  simp [Decisions.made, PyArg.truthy, List.any_eq_true]

theorem decide_eq_some (d : Decisions) (s : Subj) (c : String)
    (h : (findCat d.cats c).isSome) : d.decide s c = some (d.decideT s c) := by
  rcases hfc : findCat d.cats c with _ | S
  · rw [hfc] at h; cases h
  · simp [Decisions.decide, hfc, Decisions.decideT]

theorem keys_decideAllT (c : String) :
    ∀ (l : List Subj) (d : Decisions), (decideAllT d c l).keys = d.keys := by
  intro l
  induction l with
  | nil => intro d; rfl
  | cons s ss ih =>
      intro d
      show (decideAllT (d.decideT s c) c ss).keys = d.keys
      rw [ih (d.decideT s c), Decisions.decideT, keys_updateCat]

theorem decideAll_eq_decideAllT (c : String) :
    ∀ (l : List Subj) (d : Decisions), (findCat d.cats c).isSome →
      decideAll d c l = some (decideAllT d c l) := by
  intro l
  induction l with
  | nil => intro d _; rfl
  | cons s ss ih =>
      intro d h
      have h1 : d.decide s c = some (d.decideT s c) := decide_eq_some d s c h
      have h2 : (findCat (d.decideT s c).cats c).isSome := by
        rw [findCat_isSome_iff_mem]
        have := keys_updateCat d c (insert s.pyStr)
        rw [Decisions.decideT]
        show c ∈ (d.updateCat c (insert s.pyStr)).keys
        rw [this]
        exact (findCat_isSome_iff_mem c d.cats).mp h
      simp only [decideAll, List.foldlM_cons, h1, Option.bind_eq_bind,
        Option.some_bind]
      exact ih (d.decideT s c) h2

theorem getSet_decideAllT (c : String) :
    ∀ (l : List Subj) (d : Decisions), (findCat d.cats c).isSome →
      (decideAllT d c l).getSet c = d.getSet c ∪ (l.map Subj.pyStr).toFinset := by
  intro l
  induction l with
  | nil => intro d _; simp [decideAllT]
  | cons s ss ih =>
      intro d h
      have h2 : (findCat (d.decideT s c).cats c).isSome := by
        rw [findCat_isSome_iff_mem]
        show c ∈ (d.updateCat c (insert s.pyStr)).keys
        rw [keys_updateCat]
        exact (findCat_isSome_iff_mem c d.cats).mp h
      show (decideAllT (d.decideT s c) c ss).getSet c = _
      rw [ih (d.decideT s c) h2]
      have h3 : (d.decideT s c).getSet c = insert s.pyStr (d.getSet c) :=
        getSet_updateCat_self d c (insert s.pyStr) h
      rw [h3]
      simp [Finset.insert_union, Finset.union_insert]

theorem map_update_id (c : String) (f : Finset String → Finset String)
    (cats : List (String × Finset String)) (hc : c ∉ cats.map Prod.fst) :
    cats.map (fun p => if p.1 = c then (p.1, f p.2) else p) = cats := by
  induction cats with
  | nil => rfl
  | cons p ps ih =>
      simp only [List.map_cons, List.mem_cons, not_or] at hc
      have h1 : p.1 ≠ c := fun heq => hc.1 (heq ▸ rfl)
      simp [h1, ih hc.2]

theorem map_insert_id (x : String) (c : String)
    (cats : List (String × Finset String)) (hnd : (cats.map Prod.fst).Nodup)
    (hx : x ∈ (findCat cats c).getD ∅) :
    cats.map (fun p => if p.1 = c then (p.1, insert x p.2) else p) = cats := by
  induction cats with
  | nil => rfl
  | cons p ps ih =>
      rcases p with ⟨a, S⟩
      simp only [List.map_cons, List.nodup_cons] at hnd
      by_cases h : a = c
      · have hmem : x ∈ S := by
          simp only [findCat, h, if_true, Option.getD_some] at hx
          exact hx
        have hout : c ∉ ps.map Prod.fst := h ▸ hnd.1
        simp [h, Finset.insert_eq_self.mpr hmem, map_update_id c _ ps hout]
      · have hx' : x ∈ (findCat ps c).getD ∅ := by
          simpa [findCat, h] using hx
        simp [h, ih hnd.2 hx']

theorem decideT_mem_id (d : Decisions) (s : Subj) (c : String)
    (hnodup : d.keys.Nodup) (hmem : s.pyStr ∈ d.getSet c) :
    d.decideT s c = d := by
  rcases d with ⟨wd, cats⟩
  simp only [Decisions.decideT, Decisions.updateCat, Decisions.mk.injEq, true_and]
  exact map_insert_id s.pyStr c cats hnodup hmem

/-! ### Claim theorems about the ledger -/

/-- C9: for a category name `c` that was not declared when the ledger was
constructed, `decide` and `revoke` raise (`KeyError` on the dict lookup,
modelled as `none`) instead of silently creating the category, and `count`
also fails (`self.decision(c)[1]` is `None` and `len(None)` raises a
`TypeError`, modelled as `none`) rather than returning 0. -/
theorem undeclared_category_errors (d : Decisions) (s : Subj) (c : String)
    (hc : c ∉ d.keys) :
    d.decide s c = none ∧ d.revoke s c = none ∧ d.count c = none := by
  have h : findCat d.cats c = none := (findCat_eq_none_iff c d.cats).mpr hc
  exact ⟨by simp [Decisions.decide, h], by simp [Decisions.revoke, h],
    by simp [Decisions.count, h]⟩

theorem undeclared_category_errors_witness :
    (Decisions.decide ⟨"w", [("a", ∅)]⟩ (Subj.str "x") "b" = none)
    ∧ (Decisions.revoke ⟨"w", [("a", ∅)]⟩ (Subj.str "x") "b" = none)
    ∧ (Decisions.count ⟨"w", [("a", ∅)]⟩ "b" = none) :=
  undeclared_category_errors ⟨"w", [("a", ∅)]⟩ (Subj.str "x") "b" (by decide)

/-- C10: `made` with a falsy explicit decision argument (the empty string,
`None`, or the int `0`) takes the `else` branch of `if explicit_decision:`
and behaves exactly like the no-category form: true iff the subject's
string form is a member of ANY managed category's set — no specific-category
check and no error. -/
theorem made_falsy_any (d : Decisions) (s : Subj) :
    d.made s (PyArg.str "") = d.made s PyArg.pyNone
    ∧ d.made s (PyArg.int 0) = d.made s PyArg.pyNone
    ∧ (d.made s PyArg.pyNone = true ↔ ∃ p ∈ d.cats, s.pyStr ∈ p.2) := by
  refine ⟨?_, ?_, made_none_iff d s⟩
  · simp [Decisions.made, PyArg.truthy]
  · simp [Decisions.made, PyArg.truthy]

/-- C6: for a managed category `c` (a valid, hence nonempty, file name, as
the `Decisions` docstring requires of decision keys), `made` with the
explicit category returns true iff the subject's string form is a member of
exactly that category's set; with the category omitted it returns true iff
the string form is a member of at least one managed category's set. -/
theorem made_explicit_vs_any (d : Decisions) (s : Subj) (c : String)
    (_hc : c ∈ d.keys) (hne : c ≠ "") (hnodup : d.keys.Nodup) :
    (d.made s (PyArg.str c) = true ↔ s.pyStr ∈ d.getSet c)
    ∧ (d.made s PyArg.pyNone = true ↔ ∃ p ∈ d.cats, s.pyStr ∈ p.2) := by
  constructor
  · rw [made_str_eq d s c hne hnodup]
    simp
  · exact made_none_iff d s

theorem made_explicit_vs_any_witness :
    (Decisions.made ⟨"w", [("a", {"1"}), ("b", ∅)]⟩ (Subj.int 1) (PyArg.str "a") = true
      ↔ (Subj.int 1).pyStr ∈ Decisions.getSet ⟨"w", [("a", {"1"}), ("b", ∅)]⟩ "a")
    ∧ (Decisions.made ⟨"w", [("a", {"1"}), ("b", ∅)]⟩ (Subj.int 1) PyArg.pyNone = true
      ↔ ∃ p ∈ (Decisions.cats ⟨"w", [("a", {"1"}), ("b", ∅)]⟩), (Subj.int 1).pyStr ∈ p.2) :=
  made_explicit_vs_any ⟨"w", [("a", {"1"}), ("b", ∅)]⟩ (Subj.int 1) "a"
    (by decide) (by decide) (by decide)

/-- C5: starting from a category with an empty set, a finite sequence of
`decide` calls (possibly with repeated subjects) leaves `count` equal to the
number of distinct normalized subject strings, not the number of calls; and
re-deciding any subject already decided in the sequence leaves the ledger
(hence the category's set) unchanged. -/
theorem decide_count_distinct (d : Decisions) (c : String) (l : List Subj)
    (s : Subj) (hc : findCat d.cats c = some ∅) (hnodup : d.keys.Nodup)
    (hs : s.pyStr ∈ l.map Subj.pyStr) :
    (decideAll d c l).bind (fun d' => d'.count c)
        = some ((l.map Subj.pyStr).dedup.length)
    ∧ decideAll d c (l ++ [s]) = decideAll d c l := by
  have hsome : (findCat d.cats c).isSome := by rw [hc]; rfl
  have h1 := decideAll_eq_decideAllT c l d hsome
  have hget : (decideAllT d c l).getSet c = (l.map Subj.pyStr).toFinset := by
    rw [getSet_decideAllT c l d hsome]
    have hz : d.getSet c = ∅ := by simp [Decisions.getSet, hc]
    rw [hz, Finset.empty_union]
  constructor
  · have hsome' : (findCat (decideAllT d c l).cats c).isSome := by
      rw [findCat_isSome_iff_mem]
      show c ∈ (decideAllT d c l).keys
      rw [keys_decideAllT]
      exact (findCat_isSome_iff_mem c d.cats).mp hsome
    rcases hfc : findCat (decideAllT d c l).cats c with _ | S
    · rw [hfc] at hsome'; cases hsome'
    · have hS : S = (l.map Subj.pyStr).toFinset := by
        have := hget
        simp only [Decisions.getSet, hfc, Option.getD_some] at this
        exact this
      rw [h1]
      simp [Decisions.count, hfc, hS, List.card_toFinset]
  · rw [decideAll_eq_decideAllT c (l ++ [s]) d hsome, h1]
    have happ : decideAllT d c (l ++ [s]) = (decideAllT d c l).decideT s c := by
      simp [decideAllT, List.foldl_append]
    have : decideAllT d c (l ++ [s]) = decideAllT d c l := by
      rw [happ]
      apply decideT_mem_id
      · rw [keys_decideAllT]
        exact hnodup
      · rw [hget]
        exact List.mem_toFinset.mpr hs
    rw [this]

theorem decide_count_distinct_witness :
    ((decideAll ⟨"w", [("c", ∅)]⟩ "c" [Subj.int 1, Subj.str "1", Subj.str "a", Subj.int 1]).bind
        (fun d' => d'.count "c")
      = some (([Subj.int 1, Subj.str "1", Subj.str "a", Subj.int 1].map Subj.pyStr).dedup.length))
    ∧ decideAll ⟨"w", [("c", ∅)]⟩ "c"
        ([Subj.int 1, Subj.str "1", Subj.str "a", Subj.int 1] ++ [Subj.str "a"])
      = decideAll ⟨"w", [("c", ∅)]⟩ "c" [Subj.int 1, Subj.str "1", Subj.str "a", Subj.int 1] :=
  decide_count_distinct ⟨"w", [("c", ∅)]⟩ "c"
    [Subj.int 1, Subj.str "1", Subj.str "a", Subj.int 1] (Subj.str "a")
    (by decide) (by decide) (by decide)

/-! ### Persistence lemmas -/

theorem mem_insEnum (a : String) (S : Finset String) :
    a ∈ insEnum S ↔ a ∈ S := by
  rcases S with ⟨m, hm⟩
  revert hm
  refine Quotient.inductionOn m ?_
  intro l hl
  show a ∈ List.insertionSort strOrd l ↔ _
  rw [(List.perm_insertionSort strOrd l).mem_iff]
  simp [Finset.mem_mk]

theorem insEnum_isEnum : IsEnum insEnum := by
  intro S
  ext a
  rw [List.mem_toFinset, mem_insEnum]

theorem filename_inj (wd c1 c2 : String)
    (h : wd ++ "/" ++ c1 = wd ++ "/" ++ c2) : c1 = c2 := by
  have hd := congrArg String.data h
  simp only [String.data_append] at hd
  have h2 : c1.data = c2.data := List.append_cancel_left hd
  cases c1; cases c2
  exact congrArg String.mk h2

theorem storeWrite_self (st : Store) (fn content : String) :
    storeWrite st fn content fn = some content := by
  simp [storeWrite]

theorem storeWrite_ne (st : Store) (fn content x : String) (h : x ≠ fn) :
    storeWrite st fn content x = st x := by
  simp [storeWrite, h]

theorem commitList_notkey (wd : String) (enum : Finset String → List String)
    (fn : String) :
    ∀ (cats : List (String × Finset String)) (st : Store),
      (∀ p ∈ cats, wd ++ "/" ++ p.1 ≠ fn) →
      commitList wd enum cats st fn = st fn := by
  intro cats
  induction cats with
  | nil => intro st _; rfl
  | cons p ps ih =>
      intro st h
      show commitList wd enum ps
        (storeWrite st (wd ++ "/" ++ p.1) (writeLines (enum p.2))) fn = st fn
      rw [ih _ (fun q hq => h q (List.mem_cons_of_mem p hq))]
      exact storeWrite_ne st _ _ fn
        (fun heq => h p (List.mem_cons_self p ps) heq.symm)

theorem commitList_read (wd : String) (enum : Finset String → List String)
    (c : String) (S : Finset String) :
    ∀ (cats : List (String × Finset String)) (st : Store),
      (cats.map Prod.fst).Nodup → (c, S) ∈ cats →
      commitList wd enum cats st (wd ++ "/" ++ c)
        = some (writeLines (enum S)) := by
  intro cats
  induction cats with
  | nil => intro st _ h; cases h
  | cons p ps ih =>
      intro st hnd hmem
      simp only [List.map_cons, List.nodup_cons] at hnd
      rcases List.mem_cons.mp hmem with heq | hmem'
      · have hp : p = (c, S) := heq.symm
        subst hp
        show commitList wd enum ps
          (storeWrite st (wd ++ "/" ++ c) (writeLines (enum S)))
          (wd ++ "/" ++ c) = _
        rw [commitList_notkey wd enum _ ps _ ?noclash]
        · exact storeWrite_self st _ _
        case noclash =>
          intro q hq heqfn
          have hq1 : q.1 = c := filename_inj wd q.1 c heqfn
          have hmm : q.1 ∈ ps.map Prod.fst := List.mem_map_of_mem Prod.fst hq
          rw [hq1] at hmm
          exact hnd.1 hmm
      · show commitList wd enum ps
          (storeWrite st (wd ++ "/" ++ p.1) (writeLines (enum p.2))) _ = _
        exact ih _ hnd.2 hmem'

theorem splitNL_append_newline (r : List Char) :
    ∀ x : List Char, '\n' ∉ x → splitNL (x ++ '\n' :: r) = x :: splitNL r := by
  intro x
  induction x with
  | nil => intro _; simp [splitNL]
  | cons ch cs ih =>
      intro hx
      have hch : ch ≠ '\n' := fun heq => hx (heq ▸ List.mem_cons_self ch cs)
      have hcs : '\n' ∉ cs := fun hm => hx (List.mem_cons_of_mem ch hm)
      rw [List.cons_append]
      show (if ch = '\n' then [] :: splitNL (cs ++ '\n' :: r)
        else
          match splitNL (cs ++ '\n' :: r) with
          | [] => [[ch]]
          | seg :: rest => (ch :: seg) :: rest) = _
      rw [if_neg hch, ih hcs]

theorem writeLines_data (s : String) (ls : List String) :
    (writeLines (s :: ls)).data = s.data ++ '\n' :: (writeLines ls).data := by
  simp [writeLines, List.append_assoc]

theorem splitNL_writeLines :
    ∀ ls : List String, (∀ s ∈ ls, '\n' ∉ s.data) →
      splitNL (writeLines ls).data = ls.map String.data ++ [[]] := by
  intro ls
  induction ls with
  | nil => intro _; rfl
  | cons s ss ih =>
      intro h
      rw [writeLines_data,
        splitNL_append_newline _ s.data (h s (List.mem_cons_self s ss)),
        ih (fun q hq => h q (List.mem_cons_of_mem s hq))]
      rfl

theorem dropTrailingEmpty_concat (xs : List (List Char)) :
    dropTrailingEmpty (xs ++ [[]]) = xs := by
  simp [dropTrailingEmpty, List.getLast?_concat, List.dropLast_concat]

theorem normalizeNL_no_cr :
    ∀ l : List Char, '\r' ∉ l → normalizeNL l = l := by
  intro l
  induction l with
  | nil => intro _; rfl
  | cons c cs ih =>
      intro hl
      have hc : c ≠ '\r' := fun heq => hl (heq ▸ List.mem_cons_self c cs)
      have hcs : '\r' ∉ cs := fun hm => hl (List.mem_cons_of_mem c hm)
      cases cs with
      | nil => simp [normalizeNL, hc]
      | cons c' cs' => simp [normalizeNL, hc, ih hcs]

theorem writeLines_no_cr (ls : List String)
    (h : ∀ s ∈ ls, '\r' ∉ s.data) : '\r' ∉ (writeLines ls).data := by
  induction ls with
  | nil => intro hm; cases hm
  | cons s ss ih =>
      rw [writeLines_data]
      intro hm
      rcases List.mem_append.mp hm with h' | h'
      · exact h s (List.mem_cons_self s ss) h'
      · rcases List.mem_cons.mp h' with h'' | h''
        · cases h''
        · exact ih (fun q hq => h q (List.mem_cons_of_mem s hq)) h''

theorem readSubjects_writeLines (ls : List String)
    (h : ∀ s ∈ ls, cleanSubject s) :
    readSubjects (writeLines ls) = ls.toFinset := by
  have hnorm : normalizeNL (writeLines ls).data = (writeLines ls).data :=
    normalizeNL_no_cr _ (writeLines_no_cr ls (fun s hs => (h s hs).2.1))
  have h1 : splitNL (writeLines ls).data = ls.map String.data ++ [[]] :=
    splitNL_writeLines ls (fun s hs => (h s hs).1)
  have h3 : ∀ l ∈ ls.map String.data,
      (fun l => String.mk (pyStrip l)) l = String.mk l := by
    intro l hl
    rcases List.mem_map.mp hl with ⟨s, hs, hsl⟩
    show String.mk (pyStrip l) = String.mk l
    rw [← hsl, (h s hs).2.2]
  have h2 : (ls.map String.data).map (fun l => String.mk (pyStrip l)) = ls := by
    rw [List.map_congr_left h3, List.map_map]
    have h4 : ∀ s ∈ ls, (String.mk ∘ String.data) s = id s := by
      intro s _
      rfl
    rw [List.map_congr_left h4, List.map_id]
  simp only [readSubjects, hnorm, h1, dropTrailingEmpty_concat, h2]

theorem openDecisions_go (wd : String) :
    ∀ (possible : List String) (d0 : Decisions) (st : Store),
      (∀ c ∈ possible, (st (wd ++ "/" ++ c)).isSome) →
      possible.foldl (openStep wd) (d0, st)
        = (⟨d0.work_dir,
            d0.cats ++ possible.map
              (fun c => (c, readSubjects ((st (wd ++ "/" ++ c)).getD "")))⟩, st) := by
  intro possible
  induction possible with
  | nil => intro d0 st _; simp
  | cons c cs ih =>
      intro d0 st h
      have hc := h c (List.mem_cons_self c cs)
      rcases hst : st (wd ++ "/" ++ c) with _ | content
      · rw [hst] at hc; cases hc
      · have hstep : openStep wd (d0, st) c
            = (⟨d0.work_dir, d0.cats ++ [(c, readSubjects content)]⟩, st) := by
          simp [openStep, touchRead, hst]
        simp only [List.foldl_cons, hstep]
        rw [ih _ st (fun q hq => h q (List.mem_cons_of_mem c hq))]
        simp [hst, List.append_assoc]

/-! ### Claim theorems about persistence -/

/-- C4 (counterexample): committing a ledger whose only stored subject
carries a leading space and reopening with the same categories does not
reproduce the mapping — the stored line is stripped on reading, so the
subject `" a"` comes back as `"a"`. -/
theorem commit_reopen_counterexample :
    (openDecisions dirtyLedger.work_dir dirtyLedger.keys
      (dirtyLedger.commitWith insEnum (fun _ => none))).1 ≠ dirtyLedger := by
  decide

/-- C4 (amended): `commit()` followed by constructing a new ledger on the
same working directory with the same categories reproduces an identical
category-to-set mapping, PROVIDED every stored subject string survives the
line-based file format: it contains no newline and is unchanged by
`strip()`. (Tweet-id subjects always satisfy this; a subject with leading
or trailing whitespace or an embedded newline is a counterexample to the
unconditional claim.) The round trip holds for every set-iteration order
the commit may use. -/
theorem commit_reopen_roundtrip (d : Decisions) (st : Store)
    (enum : Finset String → List String) (henum : IsEnum enum)
    (hnd : d.keys.Nodup)
    (hclean : ∀ p ∈ d.cats, ∀ s ∈ p.2, cleanSubject s) :
    (openDecisions d.work_dir d.keys (d.commitWith enum st)).1 = d := by
  rcases d with ⟨wd, cats⟩
  simp only [Decisions.keys, Decisions.commitWith] at hnd hclean ⊢
  have hread : ∀ p ∈ cats,
      commitList wd enum cats st (wd ++ "/" ++ p.1)
        = some (writeLines (enum p.2)) := by
    intro p hp
    exact commitList_read wd enum p.1 p.2 cats st hnd hp
  have hsome : ∀ c ∈ cats.map Prod.fst,
      (commitList wd enum cats st (wd ++ "/" ++ c)).isSome := by
    intro c hc
    rcases List.mem_map.mp hc with ⟨p, hp, hpc⟩
    rw [← hpc, hread p hp]
    rfl
  have hgo := openDecisions_go wd (cats.map Prod.fst) ⟨wd, []⟩
      (commitList wd enum cats st) hsome
  show (List.foldl (openStep wd) (⟨wd, []⟩, commitList wd enum cats st)
      (cats.map Prod.fst)).1 = _
  rw [hgo]
  simp only [List.nil_append, List.map_map]
  have hpt : ∀ p ∈ cats,
      ((fun c => (c, readSubjects
          ((commitList wd enum cats st (wd ++ "/" ++ c)).getD "")))
        ∘ Prod.fst) p = id p := by
    intro p hp
    show (p.1, readSubjects
      ((commitList wd enum cats st (wd ++ "/" ++ p.1)).getD "")) = p
    rw [hread p hp]
    simp only [Option.getD_some]
    have hcl : ∀ s ∈ enum p.2, cleanSubject s := by
      intro s hs
      apply hclean p hp
      rw [← henum p.2]
      exact List.mem_toFinset.mpr hs
    rw [readSubjects_writeLines _ hcl, henum p.2]
  rw [List.map_congr_left hpt, List.map_id]

theorem commit_reopen_roundtrip_witness :
    (openDecisions (Decisions.work_dir ⟨"w", [("k", {"1", "22"}), ("d", ∅)]⟩)
      (Decisions.keys ⟨"w", [("k", {"1", "22"}), ("d", ∅)]⟩)
      (Decisions.commitWith ⟨"w", [("k", {"1", "22"}), ("d", ∅)]⟩ insEnum
        (fun _ => none))).1
      = ⟨"w", [("k", {"1", "22"}), ("d", ∅)]⟩ :=
  commit_reopen_roundtrip ⟨"w", [("k", {"1", "22"}), ("d", ∅)]⟩ (fun _ => none)
    insEnum insEnum_isEnum (by decide) (by decide)

/-! ### Destruction runner lemmas -/

theorem getSet_updateCat_self' (d : Decisions) (c : String)
    (f : Finset String → Finset String) (hf : f ∅ = ∅) :
    (d.updateCat c f).getSet c = f (d.getSet c) := by
  rcases hfc : findCat d.cats c with _ | S
  · simp [Decisions.getSet, Decisions.updateCat, findCat_update_self, hfc, hf]
  · simp [Decisions.getSet, Decisions.updateCat, findCat_update_self, hfc]

theorem getSet_revokeT_self (d : Decisions) (s : Subj) (c : String) :
    (d.revokeT s c).getSet c = (d.getSet c).erase s.pyStr :=
  getSet_updateCat_self' d c (fun S => S.erase s.pyStr) (Finset.erase_empty _)

theorem getSet_revokeT_ne (d : Decisions) (s : Subj) (c c' : String)
    (hne : c' ≠ c) : (d.revokeT s c).getSet c' = d.getSet c' :=
  getSet_updateCat_ne d c c' hne _

theorem revokeAll_go (c : String) :
    ∀ (l : List String) (d : Decisions),
      ((l.foldl (fun dd t => dd.revokeT (Subj.str t) c) d).getSet c
        = d.getSet c \ l.toFinset)
      ∧ (∀ c', c' ≠ c →
          (l.foldl (fun dd t => dd.revokeT (Subj.str t) c) d).getSet c'
            = d.getSet c') := by
  intro l
  induction l with
  | nil => intro d; exact ⟨by simp, fun c' _ => rfl⟩
  | cons t ts ih =>
      intro d
      constructor
      · show ((ts.foldl _ (d.revokeT (Subj.str t) c)).getSet c) = _
        rw [(ih (d.revokeT (Subj.str t) c)).1, getSet_revokeT_self]
        ext a
        simp only [Finset.mem_sdiff, Finset.mem_erase, List.mem_toFinset,
          List.mem_cons, not_or, Subj.pyStr]
        tauto
      · intro c' hne
        show ((ts.foldl _ (d.revokeT (Subj.str t) c)).getSet c') = _
        rw [(ih (d.revokeT (Subj.str t) c)).2 c' hne,
          getSet_revokeT_ne d (Subj.str t) c c' hne]

theorem destroyPass_go (api : String → Bool) :
    ∀ (order : List String) (d : Decisions) (tr : List String),
      d.keys.Nodup → destroyedCat ∈ d.keys →
      ((order.foldl (destroyStep api) (d, tr)).1.keys = d.keys
      ∧ (order.foldl (destroyStep api) (d, tr)).1.getSet keepCat
          = d.getSet keepCat
      ∧ (order.foldl (destroyStep api) (d, tr)).1.getSet destroyCat
          = d.getSet destroyCat
      ∧ d.getSet destroyedCat
          ⊆ (order.foldl (destroyStep api) (d, tr)).1.getSet destroyedCat
      ∧ (∀ s, s ∈ (order.foldl (destroyStep api) (d, tr)).2 →
          s ∈ tr ∨ (s ∈ order ∧ s ∉ d.getSet keepCat
            ∧ s ∉ d.getSet destroyedCat))
      ∧ (∀ s, s ∈ (order.foldl (destroyStep api) (d, tr)).2 → s ∉ tr →
          api s = true →
          s ∈ (order.foldl (destroyStep api) (d, tr)).1.getSet destroyedCat)) := by
  intro order
  induction order with
  | nil =>
      intro d tr _ _
      refine ⟨rfl, rfl, rfl, Finset.Subset.refl _, ?_, ?_⟩
      · intro s hs; exact Or.inl hs
      · intro s hs hstr _; exact absurd hs hstr
  | cons t ts ih =>
      intro d tr hnd hdd
      simp only [List.foldl_cons]
      by_cases hk : d.made (Subj.str t) (PyArg.str keepCat) = true
      · have hstep : destroyStep api (d, tr) t = (d, tr) := by
          simp [destroyStep, hk]
        rw [hstep]
        obtain ⟨i1, i2, i3, i4, i5, i6⟩ := ih d tr hnd hdd
        refine ⟨i1, i2, i3, i4, ?_, i6⟩
        intro s hs
        rcases i5 s hs with h | ⟨h1, h2, h3⟩
        · exact Or.inl h
        · exact Or.inr ⟨List.mem_cons_of_mem t h1, h2, h3⟩
      · by_cases hx : d.made (Subj.str t) (PyArg.str destroyedCat) = true
        · have hstep : destroyStep api (d, tr) t = (d, tr) := by
            simp [destroyStep, hk, hx]
          rw [hstep]
          obtain ⟨i1, i2, i3, i4, i5, i6⟩ := ih d tr hnd hdd
          refine ⟨i1, i2, i3, i4, ?_, i6⟩
          intro s hs
          rcases i5 s hs with h | ⟨h1, h2, h3⟩
          · exact Or.inl h
          · exact Or.inr ⟨List.mem_cons_of_mem t h1, h2, h3⟩
        · have htk : t ∉ d.getSet keepCat := by
            rw [made_str_eq d (Subj.str t) keepCat (by decide) hnd] at hk
            simpa using hk
          have htx : t ∉ d.getSet destroyedCat := by
            rw [made_str_eq d (Subj.str t) destroyedCat (by decide) hnd] at hx
            simpa using hx
          by_cases ha : api t = true
          · have hstep : destroyStep api (d, tr) t
                = (d.decideT (Subj.str t) destroyedCat, tr ++ [t]) := by
              simp [destroyStep, hk, hx, ha]
            rw [hstep]
            have hkeys' : (d.decideT (Subj.str t) destroyedCat).keys = d.keys :=
              keys_updateCat d destroyedCat _
            have hnd' : (d.decideT (Subj.str t) destroyedCat).keys.Nodup := by
              rw [hkeys']; exact hnd
            have hdd' : destroyedCat ∈ (d.decideT (Subj.str t) destroyedCat).keys := by
              rw [hkeys']; exact hdd
            have hsome : (findCat d.cats destroyedCat).isSome :=
              (findCat_isSome_iff_mem destroyedCat d.cats).mpr hdd
            have hkeep' : (d.decideT (Subj.str t) destroyedCat).getSet keepCat
                = d.getSet keepCat :=
              getSet_updateCat_ne d destroyedCat keepCat (by decide) _
            have hdes' : (d.decideT (Subj.str t) destroyedCat).getSet destroyCat
                = d.getSet destroyCat :=
              getSet_updateCat_ne d destroyedCat destroyCat (by decide) _
            have hxx' : (d.decideT (Subj.str t) destroyedCat).getSet destroyedCat
                = insert t (d.getSet destroyedCat) :=
              getSet_updateCat_self d destroyedCat _ hsome
            obtain ⟨i1, i2, i3, i4, i5, i6⟩ :=
              ih (d.decideT (Subj.str t) destroyedCat) (tr ++ [t]) hnd' hdd'
            refine ⟨i1.trans hkeys', i2.trans hkeep', i3.trans hdes', ?_, ?_, ?_⟩
            · refine Finset.Subset.trans ?_ i4
              rw [hxx']
              exact Finset.subset_insert t _
            · intro s hs
              rcases i5 s hs with h | ⟨h1, h2, h3⟩
              · rcases List.mem_append.mp h with h' | h'
                · exact Or.inl h'
                · have hst : s = t := List.mem_singleton.mp h'
                  subst hst
                  exact Or.inr ⟨List.mem_cons_self s ts, htk, htx⟩
              · refine Or.inr ⟨List.mem_cons_of_mem t h1, ?_, ?_⟩
                · rwa [hkeep'] at h2
                · intro hmem
                  apply h3
                  rw [hxx']
                  exact Finset.mem_insert_of_mem hmem
            · intro s hs hstr hapi
              by_cases hst : s = t
              · subst hst
                apply i4
                rw [hxx']
                exact Finset.mem_insert_self s _
              · have hstr' : s ∉ tr ++ [t] := by
                  intro hmem
                  rcases List.mem_append.mp hmem with h' | h'
                  · exact hstr h'
                  · exact hst (List.mem_singleton.mp h')
                exact i6 s hs hstr' hapi
          · have hstep : destroyStep api (d, tr) t = (d, tr ++ [t]) := by
              simp [destroyStep, hk, hx, ha]
            rw [hstep]
            obtain ⟨i1, i2, i3, i4, i5, i6⟩ := ih d (tr ++ [t]) hnd hdd
            refine ⟨i1, i2, i3, i4, ?_, ?_⟩
            · intro s hs
              rcases i5 s hs with h | ⟨h1, h2, h3⟩
              · rcases List.mem_append.mp h with h' | h'
                · exact Or.inl h'
                · have hst : s = t := List.mem_singleton.mp h'
                  subst hst
                  exact Or.inr ⟨List.mem_cons_self s ts, htk, htx⟩
              · exact Or.inr ⟨List.mem_cons_of_mem t h1, h2, h3⟩
            · intro s hs hstr hapi
              by_cases hst : s = t
              · subst hst
                exact absurd hapi ha
              · have hstr' : s ∉ tr ++ [t] := by
                  intro hmem
                  rcases List.mem_append.mp hmem with h' | h'
                  · exact hstr h'
                  · exact hst (List.mem_singleton.mp h')
                exact i6 s hs hstr' hapi

/-! ### Claim theorems about the destruction runner -/

/-- C1: after a run of the destruction runner with a configured deletion
collaborator (the pass and its reconciliation step), the destroy set equals
the destroy set at the start of the run minus every subject then in the
destroyed set; and every subject whose external deletion succeeded (it was
passed to the collaborator and the call succeeded) is in the destroyed set
and no longer in the destroy set. Holds for every set-iteration order. -/
theorem destroy_run_reconciles (api : String → Bool)
    (enum : Finset String → List String) (henum : IsEnum enum)
    (d : Decisions) (order : List String) (s : String)
    (hnd : d.keys.Nodup) (hdd : destroyedCat ∈ d.keys)
    (_horder : order.toFinset = d.getSet destroyCat) :
    ((destroyTweets api enum d order).1.getSet destroyCat
      = d.getSet destroyCat
        \ (destroyTweets api enum d order).1.getSet destroyedCat)
    ∧ (s ∈ (destroyTweets api enum d order).2 → api s = true →
        s ∈ (destroyTweets api enum d order).1.getSet destroyedCat
        ∧ s ∉ (destroyTweets api enum d order).1.getSet destroyCat) := by
  obtain ⟨g1, g2, g3, g4, g5, g6⟩ := destroyPass_go api order d [] hnd hdd
  have g3' : (destroyPass api d order).1.getSet destroyCat
      = d.getSet destroyCat := g3
  have g6' : ∀ u, u ∈ (destroyPass api d order).2 → u ∉ ([] : List String) →
      api u = true →
      u ∈ (destroyPass api d order).1.getSet destroyedCat := g6
  have hr := revokeAll_go destroyCat
    (enum ((destroyPass api d order).1.getSet destroyedCat))
    (destroyPass api d order).1
  have hxfinal : (destroyTweets api enum d order).1.getSet destroyedCat
      = (destroyPass api d order).1.getSet destroyedCat :=
    hr.2 destroyedCat (by decide)
  have hdfinal : (destroyTweets api enum d order).1.getSet destroyCat
      = d.getSet destroyCat
        \ (destroyPass api d order).1.getSet destroyedCat := by
    have h1 := hr.1
    rw [henum ((destroyPass api d order).1.getSet destroyedCat)] at h1
    rw [show (destroyTweets api enum d order).1.getSet destroyCat
        = ((enum ((destroyPass api d order).1.getSet destroyedCat)).foldl
          (fun dd t => dd.revokeT (Subj.str t) destroyCat)
          (destroyPass api d order).1).getSet destroyCat from rfl, h1, g3']
  constructor
  · rw [hdfinal, hxfinal]
  · intro hs hapi
    have hsx : s ∈ (destroyPass api d order).1.getSet destroyedCat :=
      g6' s hs (List.not_mem_nil s) hapi
    constructor
    · rw [hxfinal]; exact hsx
    · rw [hdfinal]
      intro hmem
      exact (Finset.mem_sdiff.mp hmem).2 hsx

/-- C2: during the destruction pass, a subject in both the destroy and the
keep sets is never passed to the deletion collaborator, and a subject
already in the destroyed set when the run starts is never passed to the
collaborator again. -/
theorem destroy_pass_skips (api : String → Bool)
    (enum : Finset String → List String)
    (d : Decisions) (order : List String) (s : String)
    (hnd : d.keys.Nodup) (hdd : destroyedCat ∈ d.keys)
    (_horder : order.toFinset = d.getSet destroyCat) :
    (s ∈ d.getSet destroyCat → s ∈ d.getSet keepCat →
      s ∉ (destroyTweets api enum d order).2)
    ∧ (s ∈ d.getSet destroyedCat →
      s ∉ (destroyTweets api enum d order).2) := by
  obtain ⟨g1, g2, g3, g4, g5, g6⟩ := destroyPass_go api order d [] hnd hdd
  constructor
  · intro _ hkeep hmem
    rcases g5 s hmem with h | ⟨_, h2, _⟩
    · exact List.not_mem_nil s h
    · exact h2 hkeep
  · intro hx hmem
    rcases g5 s hmem with h | ⟨_, _, h3⟩
    · exact List.not_mem_nil s h
    · exact h3 hx

theorem destroy_run_reconciles_witness :
    ((destroyTweets (fun _ => true) insEnum runLedger ["1", "2"]).1.getSet destroyCat
      = runLedger.getSet destroyCat
        \ (destroyTweets (fun _ => true) insEnum runLedger ["1", "2"]).1.getSet destroyedCat)
    ∧ ("1" ∈ (destroyTweets (fun _ => true) insEnum runLedger ["1", "2"]).2 →
        (fun _ => true) "1" = true →
        "1" ∈ (destroyTweets (fun _ => true) insEnum runLedger ["1", "2"]).1.getSet destroyedCat
        ∧ "1" ∉ (destroyTweets (fun _ => true) insEnum runLedger ["1", "2"]).1.getSet destroyCat) :=
  destroy_run_reconciles (fun _ => true) insEnum insEnum_isEnum runLedger
    ["1", "2"] "1" (by decide) (by decide) (by decide)

theorem destroy_pass_skips_witness :
    ("2" ∈ runLedger.getSet destroyCat → "2" ∈ runLedger.getSet keepCat →
      "2" ∉ (destroyTweets (fun _ => true) insEnum runLedger ["1", "2"]).2)
    ∧ ("2" ∈ runLedger.getSet destroyedCat →
      "2" ∉ (destroyTweets (fun _ => true) insEnum runLedger ["1", "2"]).2) :=
  destroy_pass_skips (fun _ => true) insEnum runLedger ["1", "2"] "2"
    (by decide) (by decide) (by decide)

/-! ### Claim theorems about archive loading -/

/-- C8: archive load fails with the missing-directory error whenever the
working directory does not exist, and with the missing-archive-file error
whenever the directory exists but `tweet.js` is absent; in both cases
startup propagates only the error — no tweets are loaded and the decision
ledger (with its backing files) is never constructed or touched, because
`UserInterface.__init__` builds the ledger only after the archive loaded. -/
theorem archive_load_errors (fs : FS) (wd : String) :
    (fs.isDir wd = false → uiInit fs wd = .error (.missingDirectory wd))
    ∧ (fs.isDir wd = true → fs.tweetFiles (wd ++ "/" ++ "tweet.js") = none →
        uiInit fs wd
          = .error (.missingArchiveFile (wd ++ "/" ++ "tweet.js"))) := by
  constructor
  · intro h
    simp [uiInit, archiveLoad, h]
  · intro h1 h2
    simp [uiInit, archiveLoad, h1, h2]

theorem archive_load_errors_witness :
    uiInit fsNoDir "w" = .error (.missingDirectory "w")
    ∧ uiInit fsNoFile "w"
        = .error (.missingArchiveFile ("w" ++ "/" ++ "tweet.js")) :=
  ⟨(archive_load_errors fsNoDir "w").1 rfl,
   (archive_load_errors fsNoFile "w").2 rfl rfl⟩

end Yatat
